import Mathlib

/-!
Verification development for the dcnum chunked-image pipeline.

The definitions below are a shallow embedding of the Python sources:

* `src/dcnum/read/cache.py` (`HDF5ImageCache`, `ImageCorrCache`),
* `src/src/dcnum/feat/event_extractor_manager_thread.py`
  (`EventExtractorManagerThread.run`),
* `src/src/dcnum/feat/queue_event_extractor.py`
  (`QueueEventExtractor.run`, ppid helpers),
* `src/src/dcnum/feat/feat_background/bg_sparse_median.py`
  (`BackgroundSparseMed.process_second`, `process_approach`,
  `MedianWorkerSingle.run`).

Machine arrays are modelled as Lisp-style lists or index functions,
timestamps as rationals, and fallible operations return `Except`/`Option`.
-/

/-! ## HDF5ImageCache (src/dcnum/read/cache.py) -/

/-- Configuration of an `HDF5ImageCache`: dataset length (number of frames),
`chunk_size` and `cache_size`. -/
structure CacheCfg where
  length : ℕ
  chunkSize : ℕ
  cacheSize : ℕ
deriving DecidableEq

/-- The FILO/FIFO cache state: an insertion-ordered association list from
chunk index to the materialized chunk, mirroring `collections.OrderedDict`
(head of the list = first inserted = first evicted). -/
abbrev CacheState (α : Type) : Type := List (ℕ × List α)

/-- Lookup of a chunk index in the ordered cache, mirroring
`chunk_index in self.cache` / `self.cache[chunk_index]`. -/
def lookupChunk {α : Type} : CacheState α → ℕ → Option (List α)
  | [], _ => none
  | (k, v) :: rest, ci => if k = ci then some v else lookupChunk rest ci

/-- Number of elements of chunk `ci`: the slice
`[chunk_size * ci, chunk_size * (ci + 1))` clamped to the dataset length,
which is how `h5ds[fslice]` resolves the slice. -/
def chunkLen (cfg : CacheCfg) (ci : ℕ) : ℕ :=
  min (cfg.chunkSize * (ci + 1)) cfg.length - cfg.chunkSize * ci

/-- Loading a chunk from the dataset: `data = self.h5ds[fslice]` with
`fslice = slice(chunk_size * ci, chunk_size * (ci + 1))`. -/
def loadChunk {α : Type} (cfg : CacheCfg) (data : ℕ → α) (ci : ℕ) : List α :=
  (List.range (chunkLen cfg ci)).map (fun j => data (cfg.chunkSize * ci + j))

/-- State change of `HDF5ImageCache.get_chunk`: on a miss, load the chunk,
append it (OrderedDict insertion puts it last) and, if the cache now holds
more than `cache_size` entries, `popitem(last=False)` removes the head. -/
def getChunkState {α : Type} (cfg : CacheCfg) (data : ℕ → α)
    (cache : CacheState α) (ci : ℕ) : CacheState α :=
  if (lookupChunk cache ci).isSome then cache
  else
    let c2 := cache ++ [(ci, loadChunk cfg data ci)]
    if cfg.cacheSize < c2.length then c2.tail else c2

/-- Full `get_chunk`: mutate the cache, then `return self.cache[chunk_index]`
(the lookup happens after the possible eviction, hence the `Option`). -/
def getChunk {α : Type} (cfg : CacheCfg) (data : ℕ → α)
    (cache : CacheState α) (ci : ℕ) : CacheState α × Option (List α) :=
  let c := getChunkState cfg data cache ci
  (c, lookupChunk c ci)

/-- Errors that `__getitem__` can surface.  `npIndexError sub axisLen` is the
generic numpy `IndexError` raised by `chunk[sub_index]` when the materialized
chunk only has `axisLen` elements: its message names the failing sub-index
and the chunk length, not the cache object nor the requested global index. -/
inductive CacheErr where
  | npIndexError (sub : ℕ) (axisLen : ℕ)
  | keyError (ci : ℕ)
  | unmodeledNegative
deriving DecidableEq

/-- Index normalization of `__getitem__`: `if index < 0: index = len + index`. -/
def normIndex (cfg : CacheCfg) (index : ℤ) : ℤ :=
  if index < 0 then (cfg.length : ℤ) + index else index

/-- Body of `__getitem__` after index normalization. -/
def pyGetItemNorm {α : Type} (cfg : CacheCfg) (data : ℕ → α)
    (cache : CacheState α) (idx : ℤ) :
    CacheState α × Except CacheErr α :=
  if idx < 0 then
    (cache, Except.error CacheErr.unmodeledNegative)
  else
    let i : ℕ := idx.toNat
    let ci := i / cfg.chunkSize
    let sub := i % cfg.chunkSize
    match getChunk cfg data cache ci with
    | (c, none) => (c, Except.error (CacheErr.keyError ci))
    | (c, some chunk) =>
      match chunk.get? sub with
      | some v => (c, Except.ok v)
      | none => (c, Except.error (CacheErr.npIndexError sub chunk.length))

/-- Embedding of `HDF5ImageCache.__getitem__`: normalize a negative index by
adding the dataset length, locate chunk and sub-index by floor division and
remainder, call `get_chunk`, and index into the returned chunk.  An index
that is still negative after normalization (`index < -length`) leads into
Python negative-slice territory that no claim touches; it is reported as
`unmodeledNegative`. -/
def pyGetItem {α : Type} (cfg : CacheCfg) (data : ℕ → α)
    (cache : CacheState α) (index : ℤ) :
    CacheState α × Except CacheErr α :=
  pyGetItemNorm cfg data cache (normIndex cfg index)

/-- Cache consistency invariant: chunk keys are distinct, the cache respects
its capacity, and every resident chunk holds exactly the data that
`loadChunk` would produce for its key. -/
def Consistent {α : Type} (cfg : CacheCfg) (data : ℕ → α)
    (cache : CacheState α) : Prop :=
  (cache.map Prod.fst).Nodup ∧
  cache.length ≤ cfg.cacheSize ∧
  ∀ p ∈ cache, p.2 = loadChunk cfg data p.1

/-! ### Basic cache lemmas -/

theorem lookupChunk_append_left {α : Type} (c1 c2 : CacheState α) (ci : ℕ)
    (h : (lookupChunk c1 ci).isSome) :
    lookupChunk (c1 ++ c2) ci = lookupChunk c1 ci := by
  induction c1 with
  | nil => simp [lookupChunk] at h
  | cons p rest ih =>
    by_cases hp : p.1 = ci
    · simp [lookupChunk, hp]
    · simp only [lookupChunk, hp, if_false, List.cons_append] at h ⊢
      exact ih h

theorem lookupChunk_append_right {α : Type} (c1 c2 : CacheState α) (ci : ℕ)
    (h : lookupChunk c1 ci = none) :
    lookupChunk (c1 ++ c2) ci = lookupChunk c2 ci := by
  induction c1 with
  | nil => simp
  | cons p rest ih =>
    by_cases hp : p.1 = ci
    · simp [lookupChunk, hp] at h
    · simp only [lookupChunk, hp, if_false, List.cons_append] at h ⊢
      exact ih h

theorem lookupChunk_singleton {α : Type} (ci : ℕ) (v : List α) :
    lookupChunk [(ci, v)] ci = some v := by
  simp [lookupChunk]

theorem lookupChunk_none_tail {α : Type} (c : CacheState α) (ci : ℕ)
    (h : lookupChunk c ci = none) : lookupChunk c.tail ci = none := by
  cases c with
  | nil => exact h
  | cons p rest =>
    by_cases hp : p.1 = ci
    · simp [lookupChunk, hp] at h
    · simpa [lookupChunk, hp] using h

theorem lookupChunk_mem {α : Type} (c : CacheState α) (ci : ℕ) (v : List α)
    (h : lookupChunk c ci = some v) : (ci, v) ∈ c := by
  induction c with
  | nil => simp [lookupChunk] at h
  | cons p rest ih =>
    by_cases hp : p.1 = ci
    · simp only [lookupChunk, hp, if_true] at h
      obtain ⟨k, w⟩ := p
      simp only [Option.some_inj] at h
      simp only at hp
      subst hp
      subst h
      exact List.mem_cons_self _ _
    · simp only [lookupChunk, hp, if_false] at h
      exact List.mem_cons_of_mem _ (ih h)

/-- A consistent lookup hit returns the true chunk data. -/
theorem lookupChunk_consistent {α : Type} (cfg : CacheCfg) (data : ℕ → α)
    (cache : CacheState α) (ci : ℕ) (v : List α)
    (hcons : Consistent cfg data cache)
    (h : lookupChunk cache ci = some v) : v = loadChunk cfg data ci := by
  have hmem := lookupChunk_mem cache ci v h
  exact hcons.2.2 (ci, v) hmem

/-- After `get_chunk`, chunk `ci` is resident and holds the true data
(for `cache_size ≥ 1` and a consistent starting state). -/
theorem getChunk_lookup {α : Type} (cfg : CacheCfg) (data : ℕ → α)
    (cache : CacheState α) (ci : ℕ)
    (hcons : Consistent cfg data cache) (hsz : 1 ≤ cfg.cacheSize) :
    lookupChunk (getChunkState cfg data cache ci) ci
      = some (loadChunk cfg data ci) := by
  unfold getChunkState
  by_cases hhit : (lookupChunk cache ci).isSome
  · simp only [hhit, if_true]
    obtain ⟨v, hv⟩ := Option.isSome_iff_exists.mp hhit
    rw [hv, lookupChunk_consistent cfg data cache ci v hcons hv]
  · have hnone : lookupChunk cache ci = none := by
      cases h : lookupChunk cache ci with
      | none => rfl
      | some v => rw [h] at hhit; simp at hhit
    rw [if_neg hhit]
    by_cases hover : cfg.cacheSize < (cache ++ [(ci, loadChunk cfg data ci)]).length
    · simp only [hover, if_true]
      cases cache with
      | nil =>
        simp at hover
        omega
      | cons p rest =>
        have : ((p :: rest) ++ [(ci, loadChunk cfg data ci)]).tail
            = rest ++ [(ci, loadChunk cfg data ci)] := by simp
        rw [this]
        have hrest : lookupChunk rest ci = none := by
          by_cases hp : p.1 = ci
          · simp [lookupChunk, hp] at hnone
          · simpa [lookupChunk, hp] using hnone
        rw [lookupChunk_append_right rest _ ci hrest]
        exact lookupChunk_singleton ci _
    · simp only [hover, if_false]
      rw [lookupChunk_append_right cache _ ci hnone]
      exact lookupChunk_singleton ci _

theorem loadChunk_length {α : Type} (cfg : CacheCfg) (data : ℕ → α) (ci : ℕ) :
    (loadChunk cfg data ci).length = chunkLen cfg ci := by
  simp [loadChunk]

theorem loadChunk_get {α : Type} (cfg : CacheCfg) (data : ℕ → α) (ci j : ℕ)
    (h : j < chunkLen cfg ci) :
    (loadChunk cfg data ci).get? j = some (data (cfg.chunkSize * ci + j)) := by
  unfold loadChunk
  rw [List.get?_map, List.get?_range h]
  rfl

theorem lookupChunk_isSome_of_mem {α : Type} (c : CacheState α) (ci : ℕ)
    (h : ci ∈ c.map Prod.fst) : (lookupChunk c ci).isSome := by
  induction c with
  | nil => simp at h
  | cons q rest ih =>
    by_cases hq1 : q.1 = ci
    · simp [lookupChunk, hq1]
    · simp only [List.map_cons, List.mem_cons] at h
      rcases h with h | h
      · exact absurd h.symm hq1
      · simpa [lookupChunk, hq1] using ih h

/-- `get_chunk` preserves the consistency invariant. -/
theorem getChunkState_consistent {α : Type} (cfg : CacheCfg) (data : ℕ → α)
    (cache : CacheState α) (ci : ℕ) (hcons : Consistent cfg data cache) :
    Consistent cfg data (getChunkState cfg data cache ci) := by
  obtain ⟨hnodup, hlen, hdata⟩ := hcons
  unfold getChunkState
  by_cases hhit : (lookupChunk cache ci).isSome
  · simp only [hhit, if_true]
    exact ⟨hnodup, hlen, hdata⟩
  · have hnotmem : ci ∉ cache.map Prod.fst := by
      intro hmem
      exact hhit (lookupChunk_isSome_of_mem cache ci hmem)
    rw [if_neg hhit]
    have hnodup2 : ((cache ++ [(ci, loadChunk cfg data ci)]).map Prod.fst).Nodup := by
      rw [List.map_append]
      simp only [List.map_cons, List.map_nil]
      rw [List.nodup_append]
      refine ⟨hnodup, List.nodup_singleton ci, ?_⟩
      intro a ha hb
      simp only [List.mem_singleton] at hb
      subst hb
      exact hnotmem ha
    have hdata2 : ∀ p ∈ cache ++ [(ci, loadChunk cfg data ci)],
        p.2 = loadChunk cfg data p.1 := by
      intro p hp
      rcases List.mem_append.mp hp with hp | hp
      · exact hdata p hp
      · simp only [List.mem_singleton] at hp
        subst hp
        rfl
    by_cases hover : cfg.cacheSize < (cache ++ [(ci, loadChunk cfg data ci)]).length
    · simp only [hover, if_true]
      refine ⟨?_, ?_, ?_⟩
      · exact List.Nodup.sublist ((List.tail_sublist _).map Prod.fst) hnodup2
      · rw [List.length_tail]
        simp only [List.length_append, List.length_cons, List.length_nil]
        omega
      · intro p hp
        exact hdata2 p (List.mem_of_mem_tail hp)
    · simp only [hover, if_false]
      refine ⟨hnodup2, ?_, hdata2⟩
      simp only [List.length_append, List.length_cons, List.length_nil] at hover ⊢
      omega

theorem pyGetItemNorm_ok (cfg : CacheCfg) (data : ℕ → ℕ) (cache : CacheState ℕ)
    (hcons : Consistent cfg data cache)
    (hchunk : 1 ≤ cfg.chunkSize) (hsz : 1 ≤ cfg.cacheSize)
    (i : ℕ) (hi : i < cfg.length) :
    (pyGetItemNorm cfg data cache (i : ℤ)).2 = Except.ok (data i) := by
  have h0 : ¬ ((i : ℤ) < 0) := by omega
  have hdm : cfg.chunkSize * (i / cfg.chunkSize) + i % cfg.chunkSize = i :=
    Nat.div_add_mod i cfg.chunkSize
  have hmod : i % cfg.chunkSize < cfg.chunkSize := Nat.mod_lt i hchunk
  have hsubl : i % cfg.chunkSize < chunkLen cfg (i / cfg.chunkSize) := by
    unfold chunkLen
    have hmul : cfg.chunkSize * (i / cfg.chunkSize + 1)
        = cfg.chunkSize * (i / cfg.chunkSize) + cfg.chunkSize := by ring
    omega
  have hgc : getChunk cfg data cache (i / cfg.chunkSize)
      = (getChunkState cfg data cache (i / cfg.chunkSize),
         some (loadChunk cfg data (i / cfg.chunkSize))) := by
    unfold getChunk
    dsimp only
    rw [getChunk_lookup cfg data cache (i / cfg.chunkSize) hcons hsz]
  have hget := loadChunk_get cfg data (i / cfg.chunkSize) (i % cfg.chunkSize) hsubl
  unfold pyGetItemNorm
  rw [if_neg h0]
  simp only [Int.toNat_natCast]
  rw [hgc]
  simp only
  rw [hget, hdm]

/-- C3: for every chunk_size ≥ 1 and cache_size ≥ 1 and any consistent cache
state, `cache[i]` returns exactly `source[i]` for `0 ≤ i < length`, and for
`-length ≤ i < 0` the access `cache[i]` returns the same element as
`cache[length + i]`. -/
theorem cache_getitem_matches_source (cfg : CacheCfg) (data : ℕ → ℕ)
    (cache : CacheState ℕ)
    (hcons : Consistent cfg data cache)
    (hchunk : 1 ≤ cfg.chunkSize) (hsz : 1 ≤ cfg.cacheSize) :
    (∀ i : ℕ, i < cfg.length →
      (pyGetItem cfg data cache (i : ℤ)).2 = Except.ok (data i)) ∧
    (∀ i : ℤ, -(cfg.length : ℤ) ≤ i → i < 0 →
      (pyGetItem cfg data cache i).2
        = (pyGetItem cfg data cache ((cfg.length : ℤ) + i)).2) := by
  constructor
  · intro i hi
    have hn : normIndex cfg (i : ℤ) = (i : ℤ) := by
      unfold normIndex
      rw [if_neg (by omega)]
    unfold pyGetItem
    rw [hn]
    exact pyGetItemNorm_ok cfg data cache hcons hchunk hsz i hi
  · intro i hneg hlt
    have hn : normIndex cfg i = normIndex cfg ((cfg.length : ℤ) + i) := by
      unfold normIndex
      rw [if_pos hlt, if_neg (by omega)]
    unfold pyGetItem
    rw [hn]

/-- Witness for C3 at a concrete configuration: 5 frames of data
`i ↦ 10 * i`, chunk_size 2, cache_size 2, empty starting cache. -/
theorem cache_getitem_matches_source_witness :
    Consistent ⟨5, 2, 2⟩ (fun i => 10 * i) ([] : CacheState ℕ) ∧
    (pyGetItem ⟨5, 2, 2⟩ (fun i => 10 * i) [] ((3 : ℕ) : ℤ)).2
      = Except.ok ((fun i => 10 * i) 3) ∧
    (pyGetItem ⟨5, 2, 2⟩ (fun i => 10 * i) [] (-2 : ℤ)).2
      = (pyGetItem ⟨5, 2, 2⟩ (fun i => 10 * i) [] (((5 : ℕ) : ℤ) + (-2 : ℤ))).2 := by
  have hcons : Consistent ⟨5, 2, 2⟩ (fun i => 10 * i) ([] : CacheState ℕ) := by
    refine ⟨by simp, by simp, ?_⟩
    intro p hp
    simp at hp
  refine ⟨hcons, ?_, ?_⟩
  · exact (cache_getitem_matches_source ⟨5, 2, 2⟩ (fun i => 10 * i) []
      hcons (by decide) (by decide)).1 3 (by decide)
  · exact (cache_getitem_matches_source ⟨5, 2, 2⟩ (fun i => 10 * i) []
      hcons (by decide) (by decide)).2 (-2) (by decide) (by decide)

/-- C4: the chunk cache keeps at most `cache_size` entries across any
`get_chunk` call; a hit neither loads nor evicts nor changes any eviction
priority (the state is untouched); a miss appends the loaded chunk and, if
the capacity is exceeded, evicts exactly the earliest-inserted entry (the
head of the insertion-ordered state), independent of access recency. -/
theorem cache_fifo_eviction (cfg : CacheCfg) (data : ℕ → ℕ)
    (cache : CacheState ℕ) (ci : ℕ) :
    (cache.length ≤ cfg.cacheSize →
        (getChunkState cfg data cache ci).length ≤ cfg.cacheSize) ∧
    (∀ v, lookupChunk cache ci = some v →
        getChunk cfg data cache ci = (cache, some v)) ∧
    (lookupChunk cache ci = none → cache.length < cfg.cacheSize →
        getChunkState cfg data cache ci = cache ++ [(ci, loadChunk cfg data ci)]) ∧
    (∀ hd tl, cache = hd :: tl → lookupChunk cache ci = none →
        cache.length = cfg.cacheSize →
        getChunkState cfg data cache ci = tl ++ [(ci, loadChunk cfg data ci)]) := by
  refine ⟨?_, ?_, ?_, ?_⟩
  · intro hlen
    unfold getChunkState
    by_cases hhit : (lookupChunk cache ci).isSome
    · simpa [hhit] using hlen
    · rw [if_neg hhit]
      by_cases hover : cfg.cacheSize < (cache ++ [(ci, loadChunk cfg data ci)]).length
      · simp only [hover, if_true]
        rw [List.length_tail]
        simp only [List.length_append, List.length_cons, List.length_nil]
        omega
      · simp only [hover, if_false]
        simp only [List.length_append, List.length_cons, List.length_nil] at hover ⊢
        omega
  · intro v hv
    have hhit : (lookupChunk cache ci).isSome := by rw [hv]; rfl
    have hstate : getChunkState cfg data cache ci = cache := by
      unfold getChunkState
      rw [if_pos hhit]
    unfold getChunk
    dsimp only
    rw [hstate, hv]
  · intro hnone hunder
    have hhit : ¬ (lookupChunk cache ci).isSome = true := by
      rw [hnone]; simp
    unfold getChunkState
    rw [if_neg hhit, if_neg (by
      simp only [List.length_append, List.length_cons, List.length_nil]
      omega)]
  · intro hd tl hcache hnone hfull
    have hhit : ¬ (lookupChunk cache ci).isSome = true := by
      rw [hnone]; simp
    unfold getChunkState
    rw [if_neg hhit, if_pos (by
      subst hcache
      simp only [List.length_append, List.length_cons, List.length_nil] at hfull ⊢
      omega)]
    subst hcache
    simp

/-- Witness for C4 at a concrete configuration: 10 frames `i ↦ i`,
chunk_size 2, cache_size 2; resident chunks 0 and 1 in insertion order;
a hit on chunk 1 and an eviction caused by a miss on chunk 2. -/
theorem cache_fifo_eviction_witness :
    ([(0, [0, 1]), (1, [2, 3])] : CacheState ℕ).length ≤ (⟨10, 2, 2⟩ : CacheCfg).cacheSize ∧
    lookupChunk ([(0, [0, 1]), (1, [2, 3])] : CacheState ℕ) 1 = some [2, 3] ∧
    getChunk ⟨10, 2, 2⟩ (fun i => i) [(0, [0, 1]), (1, [2, 3])] 1
      = ([(0, [0, 1]), (1, [2, 3])], some [2, 3]) ∧
    getChunkState ⟨10, 2, 2⟩ (fun i => i) [(0, [0, 1]), (1, [2, 3])] 2
      = [(1, [2, 3])] ++ [(2, loadChunk ⟨10, 2, 2⟩ (fun i => i) 2)] := by
  refine ⟨by decide, by decide, ?_, ?_⟩
  · exact (cache_fifo_eviction ⟨10, 2, 2⟩ (fun i => i)
      [(0, [0, 1]), (1, [2, 3])] 1).2.1 [2, 3] (by decide)
  · exact (cache_fifo_eviction ⟨10, 2, 2⟩ (fun i => i)
      [(0, [0, 1]), (1, [2, 3])] 2).2.2.2 (0, [0, 1]) [(1, [2, 3])] rfl
      (by decide) (by decide)

/-- C7 (failing input from `test_image_cache_index_out_of_range`): with 20
frames, chunk_size 8 and cache_size 2, reading index 20 raises only the
generic numpy IndexError for sub-index 4 of the 4-element final chunk; the
error names neither the `HDF5ImageCache` structure nor the offending global
index 20, although the repository's own test expects the message
"out of bounds for HDF5ImageCache". -/
theorem cache_oob_generic_index_error :
    (pyGetItem ⟨20, 8, 2⟩ (fun i => i) [] (20 : ℤ)).2
      = Except.error (CacheErr.npIndexError 4 4) := by
  rfl

/-! ## ImageCorrCache (src/dcnum/read/cache.py) -/

/-- Conversion to a signed integer followed by subtraction, the elementwise
operation of `np.array(..., dtype=int) - ...` in `ImageCorrCache`. -/
def corrSub (a b : ℕ) : ℤ := (a : ℤ) - (b : ℤ)

/-- The chunk that `ImageCorrCache._get_chunk` computes on a miss:
`np.array(self.image.get_chunk(i), dtype=int) - self.image_bg.get_chunk(i)`,
i.e. the raw chunk converted to signed integers minus the background chunk. -/
def corrLoadChunk (rawCfg bgCfg : CacheCfg) (raw bg : ℕ → ℕ) (ci : ℕ) :
    List ℤ :=
  List.zipWith corrSub (loadChunk rawCfg raw ci) (loadChunk bgCfg bg ci)

/-- Combined state of an `ImageCorrCache`: the two wrapped image caches plus
the corrected-chunk cache of the wrapper itself. -/
structure CorrState where
  rawCache : CacheState ℕ
  bgCache : CacheState ℕ
  corrCache : CacheState ℤ

/-- Embedding of `ImageCorrCache._get_chunk`: on a miss, call `get_chunk` on
both wrapped caches (mutating them), store the signed difference, and evict
under the same FIFO rule with capacity `image.cache_size`
(`self.cache_size = image.cache_size` in `__init__`). -/
def corrGetChunk (rawCfg bgCfg : CacheCfg) (raw bg : ℕ → ℕ)
    (st : CorrState) (ci : ℕ) : CorrState × Option (List ℤ) :=
  if (lookupChunk st.corrCache ci).isSome then (st, lookupChunk st.corrCache ci)
  else
    match getChunk rawCfg raw st.rawCache ci, getChunk bgCfg bg st.bgCache ci with
    | (rc, some rchunk), (bc, some bchunk) =>
      let d := List.zipWith corrSub rchunk bchunk
      let c2 := st.corrCache ++ [(ci, d)]
      let c3 := if rawCfg.cacheSize < c2.length then c2.tail else c2
      (⟨rc, bc, c3⟩, lookupChunk c3 ci)
    | (rc, none), (bc, _) => (⟨rc, bc, st.corrCache⟩, none)
    | (rc, some _), (bc, none) => (⟨rc, bc, st.corrCache⟩, none)

/-- Embedding of `ImageCorrCache.__getitem__` after index normalization;
chunk index and sub-index come from `self.chunk_size = image.chunk_size`. -/
def corrGetItemNorm (rawCfg bgCfg : CacheCfg) (raw bg : ℕ → ℕ)
    (st : CorrState) (idx : ℤ) : CorrState × Except CacheErr ℤ :=
  if idx < 0 then
    (st, Except.error CacheErr.unmodeledNegative)
  else
    let i : ℕ := idx.toNat
    let ci := i / rawCfg.chunkSize
    let sub := i % rawCfg.chunkSize
    match corrGetChunk rawCfg bgCfg raw bg st ci with
    | (c, none) => (c, Except.error (CacheErr.keyError ci))
    | (c, some chunk) =>
      match chunk.get? sub with
      | some v => (c, Except.ok v)
      | none => (c, Except.error (CacheErr.npIndexError sub chunk.length))

/-- Embedding of `ImageCorrCache.__getitem__`; the negative-index shift uses
`len(self.h5ds)` which is the raw image dataset length. -/
def corrGetItem (rawCfg bgCfg : CacheCfg) (raw bg : ℕ → ℕ)
    (st : CorrState) (index : ℤ) : CorrState × Except CacheErr ℤ :=
  corrGetItemNorm rawCfg bgCfg raw bg st (normIndex rawCfg index)

/-- Consistency of the combined `ImageCorrCache` state. -/
def CorrConsistent (rawCfg bgCfg : CacheCfg) (raw bg : ℕ → ℕ)
    (st : CorrState) : Prop :=
  Consistent rawCfg raw st.rawCache ∧
  Consistent bgCfg bg st.bgCache ∧
  (st.corrCache.map Prod.fst).Nodup ∧
  st.corrCache.length ≤ rawCfg.cacheSize ∧
  ∀ p ∈ st.corrCache, p.2 = corrLoadChunk rawCfg bgCfg raw bg p.1

/-- FIFO insertion on the key sequence of an insertion-ordered cache with
capacity `cap`: a resident key changes nothing, an absent key is appended
and, over capacity, the earliest-inserted key is dropped. -/
def fifoKeys (cap : ℕ) (keys : List ℕ) (ci : ℕ) : List ℕ :=
  if ci ∈ keys then keys
  else
    let k2 := keys ++ [ci]
    if cap < k2.length then k2.tail else k2

theorem lookupChunk_isSome_iff_mem {α : Type} (c : CacheState α) (ci : ℕ) :
    (lookupChunk c ci).isSome ↔ ci ∈ c.map Prod.fst := by
  constructor
  · intro h
    obtain ⟨v, hv⟩ := Option.isSome_iff_exists.mp h
    exact List.mem_map.mpr ⟨(ci, v), lookupChunk_mem c ci v hv, rfl⟩
  · exact lookupChunk_isSome_of_mem c ci

/-- Inserting a fresh chunk and evicting over capacity still leaves the
fresh chunk resident with its data (as long as the capacity is positive). -/
theorem lookup_insert_evict {α : Type} (cache : CacheState α) (ci : ℕ)
    (d : List α) (cap : ℕ) (hcap : 1 ≤ cap)
    (hnone : lookupChunk cache ci = none) :
    lookupChunk
      (if cap < (cache ++ [(ci, d)]).length
        then (cache ++ [(ci, d)]).tail else cache ++ [(ci, d)]) ci
      = some d := by
  by_cases hover : cap < (cache ++ [(ci, d)]).length
  · rw [if_pos hover]
    cases cache with
    | nil =>
      simp only [List.nil_append, List.length_cons, List.length_nil] at hover
      omega
    | cons p rest =>
      have : ((p :: rest) ++ [(ci, d)]).tail = rest ++ [(ci, d)] := by simp
      rw [this]
      have hrest : lookupChunk rest ci = none := by
        by_cases hp : p.1 = ci
        · simp [lookupChunk, hp] at hnone
        · simpa [lookupChunk, hp] using hnone
      rw [lookupChunk_append_right rest _ ci hrest]
      exact lookupChunk_singleton ci d
  · rw [if_neg hover]
    rw [lookupChunk_append_right cache _ ci hnone]
    exact lookupChunk_singleton ci d

/-- The key sequence of `get_chunk` evolves by FIFO insertion at capacity
`cache_size`. -/
theorem getChunkState_keys (cfg : CacheCfg) (data : ℕ → ℕ)
    (cache : CacheState ℕ) (ci : ℕ) :
    (getChunkState cfg data cache ci).map Prod.fst
      = fifoKeys cfg.cacheSize (cache.map Prod.fst) ci := by
  unfold getChunkState fifoKeys
  by_cases hhit : (lookupChunk cache ci).isSome
  · rw [if_pos hhit, if_pos ((lookupChunk_isSome_iff_mem cache ci).mp hhit)]
  · rw [if_neg hhit, if_neg (fun hmem =>
      hhit ((lookupChunk_isSome_iff_mem cache ci).mpr hmem))]
    dsimp only
    by_cases hover : cfg.cacheSize < (cache ++ [(ci, loadChunk cfg data ci)]).length
    · rw [if_pos hover, if_pos (by
        simpa using hover)]
      rw [List.map_tail, List.map_append]
      cases cache with
      | nil => simp
      | cons p rest => simp
    · rw [if_neg hover, if_neg (by
        simpa using hover)]
      simp

/-- On any `_get_chunk` call with positive capacities and a consistent state,
the returned corrected chunk is the signed raw chunk minus the background
chunk. -/
theorem corrGetChunk_value (rawCfg bgCfg : CacheCfg) (raw bg : ℕ → ℕ)
    (st : CorrState) (ci : ℕ)
    (hcons : CorrConsistent rawCfg bgCfg raw bg st)
    (hrsz : 1 ≤ rawCfg.cacheSize) (hbsz : 1 ≤ bgCfg.cacheSize) :
    (corrGetChunk rawCfg bgCfg raw bg st ci).2
      = some (corrLoadChunk rawCfg bgCfg raw bg ci) := by
  obtain ⟨rcache, bcache, ccache⟩ := st
  obtain ⟨hrc, hbc, hnodup, hlen, hdata⟩ := hcons
  unfold corrGetChunk
  dsimp only at hnodup hlen hdata ⊢
  by_cases hhit : (lookupChunk ccache ci).isSome
  · rw [if_pos hhit]
    obtain ⟨v, hv⟩ := Option.isSome_iff_exists.mp hhit
    have hmem := lookupChunk_mem ccache ci v hv
    have hval : v = corrLoadChunk rawCfg bgCfg raw bg ci := hdata (ci, v) hmem
    dsimp only
    rw [hv, hval]
  · have hnone : lookupChunk ccache ci = none := by
      cases h : lookupChunk ccache ci with
      | none => rfl
      | some v => rw [h] at hhit; simp at hhit
    rw [if_neg hhit]
    have hraw : getChunk rawCfg raw rcache ci
        = (getChunkState rawCfg raw rcache ci, some (loadChunk rawCfg raw ci)) := by
      unfold getChunk
      dsimp only
      rw [getChunk_lookup rawCfg raw rcache ci hrc hrsz]
    have hbg : getChunk bgCfg bg bcache ci
        = (getChunkState bgCfg bg bcache ci, some (loadChunk bgCfg bg ci)) := by
      unfold getChunk
      dsimp only
      rw [getChunk_lookup bgCfg bg bcache ci hbc hbsz]
    rw [hraw, hbg]
    dsimp only
    exact lookup_insert_evict ccache ci _ rawCfg.cacheSize hrsz hnone

/-- On any `_get_chunk` call with positive capacities and a consistent state,
the corrected-chunk cache keys evolve by FIFO insertion at the raw cache's
capacity `image.cache_size`. -/
theorem corrGetChunk_keys (rawCfg bgCfg : CacheCfg) (raw bg : ℕ → ℕ)
    (st : CorrState) (ci : ℕ)
    (hcons : CorrConsistent rawCfg bgCfg raw bg st)
    (hrsz : 1 ≤ rawCfg.cacheSize) (hbsz : 1 ≤ bgCfg.cacheSize) :
    ((corrGetChunk rawCfg bgCfg raw bg st ci).1).corrCache.map Prod.fst
      = fifoKeys rawCfg.cacheSize (st.corrCache.map Prod.fst) ci := by
  obtain ⟨rcache, bcache, ccache⟩ := st
  obtain ⟨hrc, hbc, hnodup, hlen, hdata⟩ := hcons
  unfold corrGetChunk fifoKeys
  dsimp only at hnodup hlen hdata ⊢
  by_cases hhit : (lookupChunk ccache ci).isSome
  · rw [if_pos hhit, if_pos ((lookupChunk_isSome_iff_mem ccache ci).mp hhit)]
  · have hnone : lookupChunk ccache ci = none := by
      cases h : lookupChunk ccache ci with
      | none => rfl
      | some v => rw [h] at hhit; simp at hhit
    rw [if_neg hhit, if_neg (fun hmem =>
      hhit ((lookupChunk_isSome_iff_mem ccache ci).mpr hmem))]
    have hraw : getChunk rawCfg raw rcache ci
        = (getChunkState rawCfg raw rcache ci, some (loadChunk rawCfg raw ci)) := by
      unfold getChunk
      dsimp only
      rw [getChunk_lookup rawCfg raw rcache ci hrc hrsz]
    have hbg : getChunk bgCfg bg bcache ci
        = (getChunkState bgCfg bg bcache ci, some (loadChunk bgCfg bg ci)) := by
      unfold getChunk
      dsimp only
      rw [getChunk_lookup bgCfg bg bcache ci hbc hbsz]
    rw [hraw, hbg]
    dsimp only
    by_cases hover : rawCfg.cacheSize
        < (ccache ++ [(ci, List.zipWith corrSub (loadChunk rawCfg raw ci)
            (loadChunk bgCfg bg ci))]).length
    · rw [if_pos hover, if_pos (by simpa using hover)]
      rw [List.map_tail, List.map_append]
      cases ccache with
      | nil => simp
      | cons p rest => simp
    · rw [if_neg hover, if_neg (by simpa using hover)]
      simp

/-- With matching chunk geometry, the corrected chunk is the elementwise
signed difference over the chunk's global indices. -/
theorem corrLoadChunk_eq_map (rawCfg bgCfg : CacheCfg) (raw bg : ℕ → ℕ)
    (ci : ℕ) (hcs : bgCfg.chunkSize = rawCfg.chunkSize)
    (hl : bgCfg.length = rawCfg.length) :
    corrLoadChunk rawCfg bgCfg raw bg ci
      = (List.range (chunkLen rawCfg ci)).map
          (fun j => corrSub (raw (rawCfg.chunkSize * ci + j))
                            (bg (rawCfg.chunkSize * ci + j))) := by
  have hcl : chunkLen bgCfg ci = chunkLen rawCfg ci := by
    unfold chunkLen
    rw [hcs, hl]
  unfold corrLoadChunk loadChunk
  rw [hcl, hcs, List.zipWith_map, List.zipWith_same]

theorem corrGetItemNorm_ok (rawCfg bgCfg : CacheCfg) (raw bg : ℕ → ℕ)
    (st : CorrState)
    (hcons : CorrConsistent rawCfg bgCfg raw bg st)
    (hchunk : 1 ≤ rawCfg.chunkSize)
    (hrsz : 1 ≤ rawCfg.cacheSize) (hbsz : 1 ≤ bgCfg.cacheSize)
    (hcs : bgCfg.chunkSize = rawCfg.chunkSize)
    (hl : bgCfg.length = rawCfg.length)
    (i : ℕ) (hi : i < rawCfg.length) :
    (corrGetItemNorm rawCfg bgCfg raw bg st (i : ℤ)).2
      = Except.ok (corrSub (raw i) (bg i)) := by
  have h0 : ¬ ((i : ℤ) < 0) := by omega
  have hdm : rawCfg.chunkSize * (i / rawCfg.chunkSize) + i % rawCfg.chunkSize = i :=
    Nat.div_add_mod i rawCfg.chunkSize
  have hmod : i % rawCfg.chunkSize < rawCfg.chunkSize := Nat.mod_lt i hchunk
  have hsubl : i % rawCfg.chunkSize < chunkLen rawCfg (i / rawCfg.chunkSize) := by
    unfold chunkLen
    have hmul : rawCfg.chunkSize * (i / rawCfg.chunkSize + 1)
        = rawCfg.chunkSize * (i / rawCfg.chunkSize) + rawCfg.chunkSize := by ring
    omega
  have hget : (corrLoadChunk rawCfg bgCfg raw bg (i / rawCfg.chunkSize)).get?
      (i % rawCfg.chunkSize)
      = some (corrSub (raw i) (bg i)) := by
    rw [corrLoadChunk_eq_map rawCfg bgCfg raw bg _ hcs hl]
    rw [List.get?_map, List.get?_range hsubl]
    simp only [Option.map_some']
    rw [hdm]
  rcases hc : corrGetChunk rawCfg bgCfg raw bg st (i / rawCfg.chunkSize)
    with ⟨st2, r⟩
  have hr : r = some (corrLoadChunk rawCfg bgCfg raw bg (i / rawCfg.chunkSize)) := by
    have hv := corrGetChunk_value rawCfg bgCfg raw bg st (i / rawCfg.chunkSize)
      hcons hrsz hbsz
    rw [hc] at hv
    exact hv
  subst hr
  unfold corrGetItemNorm
  rw [if_neg h0]
  simp only [Int.toNat_natCast]
  rw [hc]
  dsimp only
  rw [hget]

/-- C8: every corrected chunk equals the raw chunk converted to signed
integers minus the background chunk; the corrected cache (and the raw cache)
both evolve by the same insertion-order FIFO policy at the same capacity
`image.cache_size`; and element access follows the same index-to-chunk
contract as the raw cache, returning the corrected element for valid
indices and resolving negative indices by adding the raw dataset length. -/
theorem imagecorr_cache_correct (rawCfg bgCfg : CacheCfg) (raw bg : ℕ → ℕ)
    (st : CorrState)
    (hcons : CorrConsistent rawCfg bgCfg raw bg st)
    (hchunk : 1 ≤ rawCfg.chunkSize)
    (hrsz : 1 ≤ rawCfg.cacheSize) (hbsz : 1 ≤ bgCfg.cacheSize)
    (hcs : bgCfg.chunkSize = rawCfg.chunkSize)
    (hl : bgCfg.length = rawCfg.length) :
    (∀ ci, (corrGetChunk rawCfg bgCfg raw bg st ci).2
        = some (List.zipWith corrSub (loadChunk rawCfg raw ci)
                                     (loadChunk bgCfg bg ci))) ∧
    (∀ ci, ((corrGetChunk rawCfg bgCfg raw bg st ci).1).corrCache.map Prod.fst
        = fifoKeys rawCfg.cacheSize (st.corrCache.map Prod.fst) ci) ∧
    (∀ ci, (getChunkState rawCfg raw st.rawCache ci).map Prod.fst
        = fifoKeys rawCfg.cacheSize (st.rawCache.map Prod.fst) ci) ∧
    (∀ i : ℕ, i < rawCfg.length →
        (corrGetItem rawCfg bgCfg raw bg st (i : ℤ)).2
          = Except.ok (corrSub (raw i) (bg i))) ∧
    (∀ i : ℤ, -(rawCfg.length : ℤ) ≤ i → i < 0 →
        (corrGetItem rawCfg bgCfg raw bg st i).2
          = (corrGetItem rawCfg bgCfg raw bg st ((rawCfg.length : ℤ) + i)).2) := by
  refine ⟨?_, ?_, ?_, ?_, ?_⟩
  · intro ci
    exact corrGetChunk_value rawCfg bgCfg raw bg st ci hcons hrsz hbsz
  · intro ci
    exact corrGetChunk_keys rawCfg bgCfg raw bg st ci hcons hrsz hbsz
  · intro ci
    exact getChunkState_keys rawCfg raw st.rawCache ci
  · intro i hi
    have hn : normIndex rawCfg (i : ℤ) = (i : ℤ) := by
      unfold normIndex
      rw [if_neg (by omega)]
    unfold corrGetItem
    rw [hn]
    exact corrGetItemNorm_ok rawCfg bgCfg raw bg st hcons hchunk hrsz hbsz
      hcs hl i hi
  · intro i hneg hlt
    have hn : normIndex rawCfg i = normIndex rawCfg ((rawCfg.length : ℤ) + i) := by
      unfold normIndex
      rw [if_pos hlt, if_neg (by omega)]
    unfold corrGetItem
    rw [hn]

/-- Witness for C8 at a concrete configuration: 4 raw frames `i ↦ 10 + i`
and backgrounds `i ↦ i`, chunk_size 2, cache_size 2, all caches empty. -/
theorem imagecorr_cache_correct_witness :
    CorrConsistent ⟨4, 2, 2⟩ ⟨4, 2, 2⟩ (fun i => 10 + i) (fun i => i)
      ⟨[], [], []⟩ ∧
    (corrGetChunk ⟨4, 2, 2⟩ ⟨4, 2, 2⟩ (fun i => 10 + i) (fun i => i)
        ⟨[], [], []⟩ 1).2
      = some (List.zipWith corrSub
          (loadChunk ⟨4, 2, 2⟩ (fun i => 10 + i) 1)
          (loadChunk ⟨4, 2, 2⟩ (fun i => i) 1)) ∧
    (corrGetItem ⟨4, 2, 2⟩ ⟨4, 2, 2⟩ (fun i => 10 + i) (fun i => i)
        ⟨[], [], []⟩ ((3 : ℕ) : ℤ)).2
      = Except.ok (corrSub ((fun i => 10 + i) 3) ((fun i => i) 3)) := by
  have hcons : CorrConsistent ⟨4, 2, 2⟩ ⟨4, 2, 2⟩ (fun i => 10 + i)
      (fun i => i) ⟨[], [], []⟩ := by
    refine ⟨⟨by simp, by simp, ?_⟩, ⟨by simp, by simp, ?_⟩, by simp, by simp, ?_⟩ <;>
      (intro p hp; simp at hp)
  refine ⟨hcons, ?_, ?_⟩
  · exact (imagecorr_cache_correct ⟨4, 2, 2⟩ ⟨4, 2, 2⟩ (fun i => 10 + i)
      (fun i => i) ⟨[], [], []⟩ hcons (by decide) (by decide) (by decide)
      rfl rfl).1 1
  · exact (imagecorr_cache_correct ⟨4, 2, 2⟩ ⟨4, 2, 2⟩ (fun i => 10 + i)
      (fun i => i) ⟨[], [], []⟩ hcons (by decide) (by decide) (by decide)
      rfl rfl).2.2.2.1 3 (by decide)

/-! ## EventExtractorManagerThread
(src/src/dcnum/feat/event_extractor_manager_thread.py) -/

/-- Modelled from the spec: the number of chunks of the image data, needed
because `EventExtractorManagerThread.run` reads `self.data.image.num_chunks`
while `src/dcnum/read/cache.py` does not define it.  The spec fixes the
chunk partition as fixed-size chunks with a shorter final chunk, so
`num_chunks` is the ceiling of `length / chunk_size`. -/
def numChunks (cfg : CacheCfg) : ℕ :=
  (cfg.length + cfg.chunkSize - 1) / cfg.chunkSize

/-- Modelled from the spec: `get_chunk_size(i)` "returns the element count
of chunk i (may be smaller than `chunk_size` for the final chunk) and
errors if `i` exceeds `num_chunks-1`"; the method is called by
`EventExtractorManagerThread.run` but absent from `src/dcnum/read/cache.py`. -/
def get_chunk_size (cfg : CacheCfg) (i : ℕ) : Except String ℕ :=
  if i < numChunks cfg then Except.ok (chunkLen cfg i)
  else Except.error "chunk index out of range"

/-- Populating the shared label array from the claimed slot's labels list
(`run`, lines 130-137): equal sizes copy through, a shorter labels list
fills the leading entries and zeroes the rest, a longer one raises
`ValueError("labels_list contains bad size data!")`.  A single label frame
is abstracted as one value; `0` is the all-background label frame that
`self.label_array[len(new_labels):] = 0` broadcasts. -/
def populateLabels (labelArray newLabels : List ℕ) : Except String (List ℕ) :=
  if newLabels.length = labelArray.length then Except.ok newLabels
  else if newLabels.length < labelArray.length then
    Except.ok (newLabels ++ List.replicate (labelArray.length - newLabels.length) 0)
  else Except.error "labels_list contains bad size data!"

/-- Observable actions of the coordinator while processing one claimed slot,
in program order. -/
inductive MgrAction where
  | setLabelArray (labels : List ℕ)
  | enqueue (chunk : ℕ) (frame : ℕ)
  | waitBarrier (target : ℕ)
  | setSlotState (slot : ℕ) (tag : Char)
deriving DecidableEq

/-- Embedding of one loop iteration of `EventExtractorManagerThread.run`
after a slot in state "e" has been claimed (lines 126-148): read the slot's
chunk, populate the shared label array, enqueue one `(chunk, ii)` work item
per frame of the chunk, block until the worker monitor sums to
`frames_processed + chunk_size`, and only then write the slot's state tag —
which the source sets to `'w'`.  Returns the ordered action trace and the
updated slot states. -/
def processClaimedSlot (cfg : CacheCfg) (slotStates : List Char)
    (slotChunks : List ℕ) (labelsList : List (List ℕ))
    (labelArray : List ℕ) (framesProcessed : ℕ) (curSlot : ℕ) :
    Except String (List MgrAction × List Char) :=
  let chunk := slotChunks.getD curSlot 0
  let newLabels := labelsList.getD curSlot []
  match populateLabels labelArray newLabels with
  | Except.error e => Except.error e
  | Except.ok la =>
    match get_chunk_size cfg chunk with
    | Except.error e => Except.error e
    | Except.ok csize =>
      Except.ok
        ([MgrAction.setLabelArray la]
          ++ (List.range csize).map (fun ii => MgrAction.enqueue chunk ii)
          ++ [MgrAction.waitBarrier (framesProcessed + csize),
              MgrAction.setSlotState curSlot 'w'],
         slotStates.set curSlot 'w')

/-- C1 (divergent behavior at a concrete input): processing the claimed
slot 0 holding chunk 2 of a 5-frame, chunk_size-2 dataset with 4 frames
already processed produces the trace "copy labels, enqueue one item for the
single frame, wait for barrier target 5, set slot tag" — but the tag
written after the barrier is `'w'`, not the `'s'` that the class docstring
("the slot value will be set to 's'") and the spec describe. -/
theorem coordinator_writes_w_not_s :
    processClaimedSlot ⟨5, 2, 2⟩ ['e'] [2] [[7]] [0, 0] 4 0
      = Except.ok
          ([MgrAction.setLabelArray [7, 0],
            MgrAction.enqueue 2 0,
            MgrAction.waitBarrier 5,
            MgrAction.setSlotState 0 'w'],
           ['w']) ∧ ('w' : Char) ≠ 's' := by
  exact ⟨rfl, by decide⟩

theorem replicate_get_zero (n m : ℕ) (h : m < n) :
    (List.replicate n (0 : ℕ)).get? m = some 0 := by
  induction n generalizing m with
  | zero => omega
  | succ k ih =>
    rw [List.replicate_succ]
    cases m with
    | zero => rfl
    | succ m2 =>
      simp only [List.get?_cons_succ]
      exact ih m2 (by omega)

/-- C10: when the claimed slot's labels list holds fewer frames than the
chunk-shaped label array, the coordinator writes the labels into the
leading entries and sets every remaining entry to 0, so no stale labels
survive; when it holds more frames, a ValueError is raised. -/
theorem label_array_population (labelArray newLabels : List ℕ) :
    (newLabels.length ≤ labelArray.length →
      ∃ la, populateLabels labelArray newLabels = Except.ok la ∧
        la.length = labelArray.length ∧
        la.take newLabels.length = newLabels ∧
        ∀ j, newLabels.length ≤ j → j < labelArray.length →
          la.get? j = some 0) ∧
    (labelArray.length < newLabels.length →
      populateLabels labelArray newLabels
        = Except.error "labels_list contains bad size data!") := by
  constructor
  · intro hle
    by_cases heq : newLabels.length = labelArray.length
    · refine ⟨newLabels, ?_, heq, by simp, ?_⟩
      · unfold populateLabels
        rw [if_pos heq]
      · intro j hj1 hj2
        omega
    · have hlt : newLabels.length < labelArray.length := by omega
      refine ⟨newLabels ++ List.replicate (labelArray.length - newLabels.length) 0,
        ?_, ?_, ?_, ?_⟩
      · unfold populateLabels
        rw [if_neg heq, if_pos hlt]
      · simp only [List.length_append, List.length_replicate]
        omega
      · exact List.take_left newLabels _
      · intro j hj1 hj2
        rw [List.get?_append_right hj1]
        exact replicate_get_zero _ _ (by omega)
  · intro hgt
    unfold populateLabels
    rw [if_neg (by omega), if_neg (by omega)]

/-- Witness for C10 at concrete inputs: a 3-entry label array receiving a
1-frame labels list (zero-fill case) and a 4-frame labels list (error
case). -/
theorem label_array_population_witness :
    ([5] : List ℕ).length ≤ ([0, 0, 0] : List ℕ).length ∧
    (∃ la, populateLabels [0, 0, 0] [5] = Except.ok la ∧
        la.length = ([0, 0, 0] : List ℕ).length ∧
        la.take ([5] : List ℕ).length = [5] ∧
        ∀ j, ([5] : List ℕ).length ≤ j → j < ([0, 0, 0] : List ℕ).length →
          la.get? j = some 0) ∧
    populateLabels [0, 0, 0] [1, 2, 3, 4]
      = Except.error "labels_list contains bad size data!" := by
  refine ⟨by decide, ?_, ?_⟩
  · exact (label_array_population [0, 0, 0] [5]).1 (by decide)
  · exact (label_array_population [0, 0, 0] [1, 2, 3, 4]).2 (by decide)

/-! ## QueueEventExtractor worker loop
(src/src/dcnum/feat/queue_event_extractor.py) -/

/-- Worker-visible shared state: the per-frame event-count array
`feat_nevents` (initialized to -1), the event output queue, the per-worker
monitor array, and a count of logged per-item errors. -/
structure WorkerState where
  featNevents : List ℤ
  eventQueue : List (ℕ × Option ℕ)
  monitor : List ℕ
  errorLogs : ℕ

/-- Outcome of `process_label` for one work item: a truthy events dict with
`n` events per feature, a falsy result (`None` or no events), or a raised
exception. -/
inductive ProcOutcome where
  | events (n : ℕ)
  | noEvents
  | raises
deriving DecidableEq

/-- Embedding of the per-item body of `QueueEventExtractor.run`
(lines 341-355): exceptions from `process_label` are caught and logged and
skip the `else` block, so neither `feat_nevents[index]` is written nor
anything put on the event queue; on success the count (or 0) is written and
`(index, events)` is enqueued.  In all three cases the final statement
`self.worker_monitor[self.worker_index] += 1` runs, because it sits outside
the `try`/`except`/`else`. -/
def handleItem (st : WorkerState) (workerIndex index : ℕ)
    (r : ProcOutcome) : WorkerState :=
  match r with
  | ProcOutcome.raises =>
      { st with errorLogs := st.errorLogs + 1,
                monitor := st.monitor.set workerIndex
                  (st.monitor.getD workerIndex 0 + 1) }
  | ProcOutcome.events n =>
      { st with featNevents := st.featNevents.set index (n : ℤ),
                eventQueue := st.eventQueue ++ [(index, some n)],
                monitor := st.monitor.set workerIndex
                  (st.monitor.getD workerIndex 0 + 1) }
  | ProcOutcome.noEvents =>
      { st with featNevents := st.featNevents.set index 0,
                eventQueue := st.eventQueue ++ [(index, none)],
                monitor := st.monitor.set workerIndex
                  (st.monitor.getD workerIndex 0 + 1) }

/-- C2 counterexample: for the concrete one-worker state with monitor [0],
a raising work item leaves `feat_nevents` and the event queue untouched but
does NOT leave the worker-monitor entry unchanged — the claim's conjunction
is false. -/
theorem worker_exception_counterexample :
    ¬ ((handleItem ⟨[-1], [], [0], 0⟩ 0 0 ProcOutcome.raises).featNevents = [-1] ∧
       (handleItem ⟨[-1], [], [0], 0⟩ 0 0 ProcOutcome.raises).eventQueue = [] ∧
       (handleItem ⟨[-1], [], [0], 0⟩ 0 0 ProcOutcome.raises).monitor = [0]) := by
  decide

/-- C2 amended: a work item that raises inside the worker is caught and
logged, the worker keeps running, nothing is put on the event queue and the
per-frame count entry is not updated — but the worker's entry in the shared
worker-monitor array IS incremented, because the increment sits after the
`try`/`except`/`else` block. -/
theorem worker_exception_handling (st : WorkerState) (wi idx : ℕ) :
    (handleItem st wi idx ProcOutcome.raises).featNevents = st.featNevents ∧
    (handleItem st wi idx ProcOutcome.raises).eventQueue = st.eventQueue ∧
    (handleItem st wi idx ProcOutcome.raises).errorLogs = st.errorLogs + 1 ∧
    (handleItem st wi idx ProcOutcome.raises).monitor
      = st.monitor.set wi (st.monitor.getD wi 0 + 1) :=
  ⟨rfl, rfl, rfl, rfl⟩

/-! ## Pipeline identifier for the event extractor
(src/src/dcnum/feat/queue_event_extractor.py, `dcnum.meta.ppid`) -/

/-- Character-level splitting used to model Python `str.split(sep)` for a
single-character separator (fully structural so that proofs can evaluate). -/
def splitChar (c : Char) : List Char → List (List Char)
  | [] => [[]]
  | x :: xs =>
    let r := splitChar c xs
    if x = c then [] :: r
    else
      match r with
      | [] => [[x]]
      | y :: ys => (x :: y) :: ys

/-- Python `s.split(sep)` for a one-character separator. -/
def splitOnStr (c : Char) (s : String) : List String :=
  (splitChar c s.data).map String.mk

/-- Structural prefix test on character lists, modelling
`full_key.startswith(abbreviated_key)`. -/
def isPrefixList : List Char → List Char → Bool
  | [], _ => true
  | _ :: _, [] => false
  | a :: as, b :: bs => a = b && isPrefixList as bs

def keyMatches (key full : String) : Bool :=
  isPrefixList key.data full.data

/-- The keyword-only arguments of
`QueueEventExtractor.get_events_from_masks` with their declared defaults
`brightness=True, haralick=True`. -/
structure ExtractKwargs where
  brightness : Bool
  haralick : Bool
deriving DecidableEq

/-- A subset of keyword overrides (`none` = key omitted, taking its
default). -/
structure ExtractOverrides where
  brightness : Option Bool
  haralick : Option Bool

/-- Defaults-filled keyword mapping: omitted keys take the declared
defaults (both `True`). -/
def fillDefaults (o : ExtractOverrides) : ExtractKwargs :=
  ⟨o.brightness.getD true, o.haralick.getD true⟩

/-- Boolean rendering in pipeline identifiers: `1` / `0`. -/
def boolVal (b : Bool) : String := if b then "1" else "0"

/-- Modelled from the spec: `kwargs_to_ppid` from `dcnum.meta.ppid`, which
is imported by `queue_event_extractor.py` but not under src/.  Per the spec
it joins `abbrev=value` pairs with `^` over the target method's full
keyword set in declaration order, fills omitted keys from the declared
defaults, renders booleans as 1/0, and abbreviates keys by shortest unique
prefix — for the key set of `get_events_from_masks` this gives `b` and `h`
(the docstring of `get_ppid` shows `b=1^h=1`). -/
def kwargs_to_ppid (o : ExtractOverrides) : String :=
  let kw := fillDefaults o
  "b=" ++ boolVal kw.brightness ++ "^" ++ "h=" ++ boolVal kw.haralick

/-- Parsing one boolean value of a `key=value` segment. -/
def parseBoolVal (s : String) : Except String Bool :=
  if s = "1" then Except.ok true
  else if s = "0" then Except.ok false
  else Except.error ("malformed segment value " ++ s)

/-- Modelled from the spec: one `key=value` segment of `ppid_to_kwargs`
updates the keyword whose full name the abbreviated key is a prefix of
(first match in declaration order); unknown keys and malformed segments
are fatal configuration errors. -/
def applySegment (kw : ExtractKwargs) (seg : String) :
    Except String ExtractKwargs :=
  match splitOnStr '=' seg with
  | [key, v] =>
    match parseBoolVal v with
    | Except.error e => Except.error e
    | Except.ok b =>
      if keyMatches key "brightness" then Except.ok { kw with brightness := b }
      else if keyMatches key "haralick" then Except.ok { kw with haralick := b }
      else Except.error ("unknown key " ++ key)
  | _ => Except.error ("malformed segment " ++ seg)

/-- Modelled from the spec: `ppid_to_kwargs` from `dcnum.meta.ppid` (not
under src/) starts from the declared defaults and folds the `^`-separated
segments over them, so parsing is insensitive to segment order and omitted
keys keep their defaults. -/
def ppid_to_kwargs (ppid : String) : Except String ExtractKwargs :=
  (splitOnStr '^' ppid).foldlM applySegment ⟨true, true⟩

/-- `QueueEventExtractor.get_ppid_code()` returns "legacy". -/
def get_ppid_code : String := "legacy"

/-- Embedding of `QueueEventExtractor.get_ppid_from_ppkw`:
`":".join([code, cback])`. -/
def get_ppid_from_ppkw (o : ExtractOverrides) : String :=
  get_ppid_code ++ ":" ++ kwargs_to_ppid o

/-- Embedding of `QueueEventExtractor.get_ppkw_from_ppid`:
`code, rest = extr_ppid.split(":")` (a ValueError unless there are exactly
two parts), then a ValueError "Could not find extraction method ..." when
the leading code differs from "legacy", else keyword reconstruction. -/
def get_ppkw_from_ppid (extrPpid : String) : Except String ExtractKwargs :=
  match splitOnStr ':' extrPpid with
  | [code, rest] =>
    if code = get_ppid_code then ppid_to_kwargs rest
    else Except.error ("Could not find extraction method " ++ code)
  | _ => Except.error "ValueError: unpacking extr_ppid.split failed"

/-- C9: for every subset of keyword overrides, decoding the encoded
pipeline identifier yields exactly the defaults-filled keyword mapping;
decoding is insensitive to the order of the `abbrev=value` segments and to
omitted trailing keys (which take the declared defaults); and a leading
stage code different from "legacy" is a decoding error. -/
theorem ppid_roundtrip :
    (∀ ob oh : Option Bool,
      get_ppkw_from_ppid (get_ppid_from_ppkw ⟨ob, oh⟩)
        = Except.ok (fillDefaults ⟨ob, oh⟩)) ∧
    (∀ b h : Bool,
      ppid_to_kwargs ("h=" ++ boolVal h ++ "^" ++ "b=" ++ boolVal b)
        = ppid_to_kwargs ("b=" ++ boolVal b ++ "^" ++ "h=" ++ boolVal h)) ∧
    (∀ b : Bool,
      ppid_to_kwargs ("b=" ++ boolVal b) = Except.ok ⟨b, true⟩) ∧
    (∃ e, get_ppkw_from_ppid "unknown:b=1^h=1" = Except.error e) := by
  refine ⟨?_, ?_, ?_, ?_⟩
  · intro ob oh
    rcases ob with _ | b
    · rcases oh with _ | h
      · rfl
      · cases h <;> rfl
    · rcases oh with _ | h
      · cases b <;> rfl
      · cases b <;> cases h <;> rfl
  · intro b h
    cases b <;> cases h <;> rfl
  · intro b
    cases b <;> rfl
  · exact ⟨_, rfl⟩

/-! ## BackgroundSparseMed
(src/src/dcnum/feat/feat_background/bg_sparse_median.py) -/

/-- First index of the minimum of a list of rationals, the behavior of
`np.argmin` (ties resolve to the earliest index). -/
def argminIdx : List ℚ → ℕ
  | [] => 0
  | [_] => 0
  | x :: y :: rest =>
    let j := argminIdx (y :: rest)
    if x ≤ (y :: rest).getD j 0 then 0 else j + 1

/-- Window start of `process_second`: `idx_start = np.argmin(np.abs(second -
self.time))`, then `idx_stop = idx_start + kernel_size` is clamped to the
event count with `idx_start = max(0, idx_stop - kernel_size)` whenever
`idx_stop >= event_count` (natural subtraction supplies the `max(0, ...)`). -/
def windowStart (time : List ℚ) (eventCount kernelSize : ℕ) (second : ℚ) : ℕ :=
  let idxStart := argminIdx (time.map (fun t => |second - t|))
  if eventCount ≤ idxStart + kernelSize then eventCount - kernelSize
  else idxStart

/-- What one worker writes per pixel (`MedianWorkerSingle.run`):
`np.partition(a, kth, axis=0)[kth]` with `kth = shared_input.shape[0] // 2`,
whose contract is the element of rank `kth` in sorted order. -/
def kthOfSorted (l : List ℕ) (kth : ℕ) : ℕ :=
  (l.insertionSort (· ≤ ·)).getD kth 0

/-- The pixel column of the shared input window: the reshaped
`shared_input[:, p]` after `process_second` stored frames
`idx_start..idx_start+kernel_size-1`. -/
def windowColumn (frames : ℕ → ℕ → ℕ) (s k p : ℕ) : List ℕ :=
  (List.range k).map (fun j => frames (s + j) p)

/-- One job of `MedianWorkerSingle.run`: write the rank-`kth` value into the
output positions of `slice(start, start + 500)` (clamped to the flattened
image size `smax`). -/
def applyJob (k : ℕ) (col : ℕ → List ℕ) (smax : ℕ) (out : ℕ → ℕ)
    (start : ℕ) : ℕ → ℕ :=
  fun p => if start ≤ p ∧ p < min (start + 500) smax
    then kthOfSorted (col p) (k / 2) else out p

/-- Job generation loop of `process_second`: `start = 0; while start < smax:
put slice(start, start + 500); start += 500`.  The loop is modelled with a
fuel argument (structural recursion); `smax` units of fuel are more than
enough because `start` grows by 500 each pass. -/
def jobStartsAux : ℕ → ℕ → ℕ → List ℕ
  | 0, _, _ => []
  | fuel + 1, start, smax =>
    if start < smax then start :: jobStartsAux fuel (start + 500) smax else []

def jobStarts (smax : ℕ) : List ℕ := jobStartsAux smax 0 smax

/-- Draining the job queue: each job is applied once to the shared output
(jobs touch disjoint slices, so the completion order among workers does not
matter and a left fold models any schedule). -/
def runJobs (k : ℕ) (col : ℕ → List ℕ) (smax : ℕ) (out0 : ℕ → ℕ)
    (jobs : List ℕ) : ℕ → ℕ :=
  jobs.foldl (applyJob k col smax) out0

/-- Full `process_second` result at flattened pixel `p`: select the window,
distribute the 500-pixel blocks, and read the shared output (initially
zero) after the barrier. -/
def processSecondPixel (frames : ℕ → ℕ → ℕ) (time : List ℚ)
    (eventCount kernelSize smax : ℕ) (second : ℚ) (p : ℕ) : ℕ :=
  let s := windowStart time eventCount kernelSize second
  runJobs kernelSize (windowColumn frames s kernelSize) smax
    (fun _ => 0) (jobStarts smax) p

/-- Following the spec's words: the per-pixel median of the window in
`np.median` semantics — middle element for an odd number of frames, mean of
the two middle elements for an even number. -/
def medianSpec (l : List ℕ) : ℚ :=
  let s := l.insertionSort (· ≤ ·)
  if l.length % 2 = 1 then ((s.getD (l.length / 2) 0 : ℕ) : ℚ)
  else (((s.getD (l.length / 2 - 1) 0 : ℕ) : ℚ)
        + ((s.getD (l.length / 2) 0 : ℕ) : ℚ)) / 2

theorem runJobs_frozen (k : ℕ) (col : ℕ → List ℕ) (smax : ℕ) :
    ∀ fuel s p, p < s → ∀ out : ℕ → ℕ,
      runJobs k col smax out (jobStartsAux fuel s smax) p = out p := by
  intro fuel
  induction fuel with
  | zero =>
    intro s p hp out
    rfl
  | succ f ih =>
    intro s p hp out
    unfold jobStartsAux
    by_cases hs : s < smax
    · rw [if_pos hs]
      unfold runJobs at ih ⊢
      rw [List.foldl_cons]
      rw [ih (s + 500) p (by omega) (applyJob k col smax out s)]
      unfold applyJob
      rw [if_neg (by omega)]
    · rw [if_neg hs]
      rfl

theorem runJobs_covers (k : ℕ) (col : ℕ → List ℕ) (smax : ℕ) :
    ∀ fuel s p, s ≤ p → p < smax → p < s + 500 * fuel →
      ∀ out : ℕ → ℕ,
        runJobs k col smax out (jobStartsAux fuel s smax) p
          = kthOfSorted (col p) (k / 2) := by
  intro fuel
  induction fuel with
  | zero =>
    intro s p hsp hp hfuel out
    omega
  | succ f ih =>
    intro s p hsp hp hfuel out
    have hs : s < smax := by omega
    unfold jobStartsAux
    rw [if_pos hs]
    have hstep : runJobs k col smax out (s :: jobStartsAux f (s + 500) smax) p
        = runJobs k col smax (applyJob k col smax out s)
            (jobStartsAux f (s + 500) smax) p := by
      unfold runJobs
      rw [List.foldl_cons]
    rw [hstep]
    by_cases hlt : p < s + 500
    · rw [runJobs_frozen k col smax f (s + 500) p (by omega)
        (applyJob k col smax out s)]
      unfold applyJob
      rw [if_pos (by omega)]
    · exact ih (s + 500) p (by omega) hp (by omega) (applyJob k col smax out s)

/-- C5 amended: for `1 ≤ kernel_size ≤ event_count`, the window used by
`process_second` is exactly `kernel_size` contiguous frames starting at the
frame index closest to the target timestamp, clamped so the window never
extends past the last frame; and the background value computed blockwise
over 500-pixel jobs equals, pixel for pixel, the element of rank
`kernel_size / 2` (rounding down) of the sorted window values — the upper
median, which coincides with the per-pixel median exactly when
`kernel_size` is odd. -/
theorem background_window_and_blockwise (frames : ℕ → ℕ → ℕ) (time : List ℚ)
    (eventCount kernelSize smax : ℕ) (second : ℚ)
    (hk : kernelSize ≤ eventCount) :
    (windowStart time eventCount kernelSize second
        = min (argminIdx (time.map (fun t => |second - t|)))
              (eventCount - kernelSize)) ∧
    (windowStart time eventCount kernelSize second + kernelSize
        ≤ eventCount) ∧
    (∀ p, p < smax →
        processSecondPixel frames time eventCount kernelSize smax second p
          = kthOfSorted
              (windowColumn frames
                (windowStart time eventCount kernelSize second) kernelSize p)
              (kernelSize / 2)) ∧
    (kernelSize % 2 = 1 → ∀ l : List ℕ, l.length = kernelSize →
        ((kthOfSorted l (kernelSize / 2) : ℕ) : ℚ) = medianSpec l) := by
  have hws : windowStart time eventCount kernelSize second
      = min (argminIdx (time.map (fun t => |second - t|)))
            (eventCount - kernelSize) := by
    unfold windowStart
    by_cases h : eventCount
        ≤ argminIdx (time.map (fun t => |second - t|)) + kernelSize
    · rw [if_pos h]
      omega
    · rw [if_neg h]
      omega
  refine ⟨hws, by rw [hws]; omega, ?_, ?_⟩
  · intro p hp
    unfold processSecondPixel jobStarts
    exact runJobs_covers kernelSize _ smax smax 0 p (by omega) hp
      (by omega) (fun _ => 0)
  · intro hodd l hl
    unfold kthOfSorted medianSpec
    rw [hl, if_pos hodd]

/-- Witness for C5 (amended) at a concrete input: 3 frames valued
`i + p` at times [0, 1/2, 1], kernel_size 3, a 2-pixel image, target
timestamp 0; plus the odd-kernel median agreement on the window column of
pixel 0. -/
theorem background_window_and_blockwise_witness :
    (3 : ℕ) ≤ 3 ∧
    processSecondPixel (fun i p => i + p) [0, 1/2, 1] 3 3 2 0 0
      = kthOfSorted (windowColumn (fun i p => i + p)
          (windowStart [0, 1/2, 1] 3 3 0) 3 0) (3 / 2) ∧
    ((kthOfSorted (windowColumn (fun i p => i + p) 0 3 0) (3 / 2) : ℕ) : ℚ)
      = medianSpec (windowColumn (fun i p => i + p) 0 3 0) := by
  refine ⟨by decide, ?_, ?_⟩
  · exact (background_window_and_blockwise (fun i p => i + p) [0, 1/2, 1]
      3 3 2 0 (by decide)).2.2.1 0 (by decide)
  · exact (background_window_and_blockwise (fun i p => i + p) [0, 1/2, 1]
      3 3 2 0 (by decide)).2.2.2 (by decide)
      (windowColumn (fun i p => i + p) 0 3 0) (by decide)

/-- C5 counterexample: with the (default-style) even kernel_size 2, one
pixel whose two window values are 0 and 1, the blockwise computation yields
1 (the upper median via `np.partition(...)[kth]`), while the per-pixel
median of those two frames is 1/2 — the computed background image is not
the pixelwise median. -/
theorem background_median_counterexample :
    processSecondPixel (fun i _ => i) [0, 1] 2 2 1 0 0 = 1 ∧
    medianSpec (windowColumn (fun i _ => i) 0 2 0) = 1 / 2 ∧
    ((processSecondPixel (fun i _ => i) [0, 1] 2 2 1 0 0 : ℕ) : ℚ)
      ≠ medianSpec (windowColumn (fun i _ => i) 0 2 0) := by
  have h1 : processSecondPixel (fun i _ => i) [0, 1] 2 2 1 0 0 = 1 := by
    norm_num [processSecondPixel, windowStart, argminIdx, runJobs, jobStarts,
      jobStartsAux, applyJob, kthOfSorted, windowColumn,
      List.insertionSort, List.orderedInsert]
  have h2 : medianSpec (windowColumn (fun i _ => i) 0 2 0) = 1 / 2 := by
    norm_num [medianSpec, windowColumn, List.insertionSort, List.orderedInsert]
  refine ⟨h1, h2, ?_⟩
  rw [h1, h2]
  norm_num

/-- Python slice assignment `bg_idx[a:b] = v` on a list of naturals. -/
def setSlice (l : List ℕ) (a b v : ℕ) : List ℕ :=
  (List.range l.length).map (fun i => if a ≤ i ∧ i < b then v else l.getD i 0)

/-- Embedding of the frame-to-background assignment loop of
`process_approach` (lines 288-299): `bg_idx = np.zeros(event_count)`; for
each surviving step index `ii`, `idx1 = np.argmin(np.abs(self.time - t1 +
self.split_time/2))`, `bg_idx[idx0:idx1] = ii`, `idx0 = idx1`; afterwards,
if the loop ran, `bg_idx[idx1:]` is filled with the last `ii`. -/
def assignBgIdx (time stepTimes : List ℚ) (splitTime : ℚ)
    (eventCount : ℕ) : List ℕ :=
  let res := (List.range stepTimes.length).foldl
    (fun st ii =>
      let t1 := stepTimes.getD ii 0
      let idx1 := argminIdx (time.map (fun t => |t - t1 + splitTime / 2|))
      (setSlice st.1 st.2.1 idx1 ii, idx1, some idx1))
    (List.replicate eventCount 0, 0, (none : Option ℕ))
  match res.2.2 with
  | none => res.1
  | some i1 => setSlice res.1 i1 eventCount (stepTimes.length - 1)

/-- Following the spec's words: the index of the surviving background-series
entry whose timestamp is closest to `t`, ties resolved toward the earlier
entry. -/
def nearestBgIndexSpec (stepTimes : List ℚ) (t : ℚ) : ℕ :=
  argminIdx (stepTimes.map (fun s => |t - s|))

/-- C6 (divergent behavior at a concrete input): four frames at times
[0, 1/2, 1, 3/2] with split_time 1 give step_times [0, 1]
(`np.arange(0, 1.5, 1)`, no cleansing); the code assigns every frame the
background entry 1, although frame 0 at time 0 is closest to entry 0
(timestamp 0, distance 0 versus 1).  The boundary uses
`self.time - t1 + split_time/2` — a half-interval *before* each entry's
timestamp — so frames receive the entry after their nearest one,
contradicting the class docstring "Each frame gets the background image
closest to it based on time". -/
theorem background_assignment_shifted :
    assignBgIdx [0, 1/2, 1, 3/2] [0, 1] 1 4 = [1, 1, 1, 1] ∧
    nearestBgIndexSpec [0, 1] 0 = 0 ∧
    (assignBgIdx [0, 1/2, 1, 3/2] [0, 1] 1 4).getD 0 7
      ≠ nearestBgIndexSpec [0, 1] 0 := by
  have habs : ∀ x : ℚ, |x| = if 0 ≤ x then x else -x := by
    intro x
    rcases le_or_lt 0 x with h | h
    · rw [if_pos h, abs_of_nonneg h]
    · rw [if_neg (not_le.mpr h), abs_of_neg h]
  have h1 : assignBgIdx [0, 1/2, 1, 3/2] [0, 1] 1 4 = [1, 1, 1, 1] := by
    norm_num [assignBgIdx, setSlice, argminIdx, habs,
      List.range_succ, List.replicate, List.getD]
  have h2 : nearestBgIndexSpec [0, 1] 0 = 0 := by
    norm_num [nearestBgIndexSpec, argminIdx, habs, List.getD]
  refine ⟨h1, h2, ?_⟩
  rw [h1, h2]
  norm_num
